import Mathlib

/-!
Verification of the numerical gradient kernel (NumericalDerivatorMinuit2.cxx,
Numerical2PGradientCalculator.cxx) and of the multi-process task queue
prototype (MultiProcess_Vector.cxx) of the repository.

Real arithmetic of the source is embedded over `ℚ` (exact arithmetic; the
floating-point square root, like the objective function `f`, is passed in as
an explicit function argument so that every definition stays executable).
-/

namespace NumDeriv

/-- Per-parameter gradient state `(fGrd[i], fG2[i], fGstep[i])` of
NumericalDerivatorMinuit2 (equivalently `(grd(i), g2(i), gstep(i))` of
Numerical2PGradientCalculator). -/
structure GradState where
  grd : ℚ
  g2 : ℚ
  gstep : ℚ
deriving DecidableEq, Repr

/-- The per-cycle step selection of `NumericalDerivatorMinuit2::Differentiate`
(part_000 lines 157-171), given the already computed
`optstp = sqrt(dfmin/(|fG2[i]|+epspri))`:
`step = max(optstp, |0.1*fGstep[i]|)`, then the upper clamp
`if (step > 10*|fGstep[i]|) step = 10*|fGstep[i]|`, then the lower clamp
`if (step < max(vrysml, 8*|eps2*x[i]|)) step = max(vrysml, 8*|eps2*x[i]|)`.
`e2x` stands for the product `eps2*x[i]`.  Note: the 0.5 clamp of Minuit2 for
limited parameters is absent here; the source carries it only as a comment
marked DIFFERS (lines 160-165). -/
def cycleStep (optstp gstep vrysml e2x : ℚ) : ℚ :=
  let step1 := max optstp |0.1 * gstep|
  let stpmax := 10 * |gstep|
  let step2 := if step1 > stpmax then stpmax else step1
  let stpmin := max vrysml (8 * |e2x|)
  if step2 < stpmin then stpmin else step2

/-- The per-cycle step selection of
`Numerical2PGradientCalculator::operator()` (part_000 lines 443-453): as
`cycleStep`, but between the candidate and the upper clamp, a parameter
with limits has its step clamped at 0.5:
`if (HasLimits()) { if (step > 0.5) step = 0.5; }`. -/
def minuit2CycleStep (hasLimits : Bool) (optstp gstep vrysml e2x : ℚ) : ℚ :=
  let step1 := max optstp |0.1 * gstep|
  let step2 := if hasLimits then (if step1 > 0.5 then 0.5 else step1) else step1
  let stpmax := 10 * |gstep|
  let step3 := if step2 > stpmax then stpmax else step2
  let stpmin := max vrysml (8 * |e2x|)
  if step3 < stpmin then stpmin else step3

/-- The two symmetric function evaluations and the derivative updates of one
cycle of `Differentiate` (part_000 lines 179-197):
`fs1 = f(x with x[i] = xtf + step)`, `fs2 = f(x with x[i] = xtf - step)`,
`fGrd[i] = 0.5*(fs1-fs2)/step`, `fG2[i] = (fs1+fs2-2*fVal)/step/step`,
with `fGstep[i] = step` stored just before (line 176). -/
def cycleEval (f : List ℚ → ℚ) (x : List ℚ) (i : ℕ) (xtf fVal step : ℚ) :
    GradState :=
  let fs1 := f (x.set i (xtf + step))
  let fs2 := f (x.set i (xtf - step))
  ⟨0.5 * (fs1 - fs2) / step, (fs1 + fs2 - 2 * fVal) / step / step, step⟩

/-- The quantities of `Differentiate` that stay fixed during the cycle loop of
one parameter `i`: the objective `f`, the square-root routine `sq` (an
explicit argument, so that the embedding stays executable), the tolerances,
`dfmin = 8*eps2*(|fVal|+Up)`, `vrysml = 8*eps*eps`, `eps2`, the point `x`,
the parameter index `i`, `xtf = x[i]`, the cached `fVal = f(x)` and
`epspri = eps2 + |fGrd[i]*eps2|`. -/
structure DiffCtx where
  f : List ℚ → ℚ
  sq : ℚ → ℚ
  stepTol : ℚ
  gradTol : ℚ
  dfmin : ℚ
  vrysml : ℚ
  eps2 : ℚ
  x : List ℚ
  i : ℕ
  xtf : ℚ
  fVal : ℚ
  epspri : ℚ

/-- The cycle loop of `Differentiate` for one parameter (part_000 lines
155-208), by recursion on the remaining number of cycles.  Each cycle:
`optstp = sq(dfmin/(|fG2[i]|+epspri))`; the clamped step (`cycleStep`); the
step-size convergence test `|(step-step_old)/step| < step_tolerance`, which
breaks leaving the state untouched; otherwise `fGstep[i] = step` is stored,
`f` is evaluated at `xtf ± step` and the state updated (`cycleEval`); the
gradient convergence test
`|fGrd_old-fGrd[i]| / (|fGrd[i]| + dfmin/step) < grad_tolerance` (line 203)
breaks keeping the updated state; otherwise the next cycle runs with
`step_old = step`. -/
def diffCycles (c : DiffCtx) : ℕ → ℚ → GradState → GradState
  | 0, _, s => s
  | j + 1, step_old, s =>
    let optstp := c.sq (c.dfmin / (|s.g2| + c.epspri))
    let step := cycleStep optstp s.gstep c.vrysml (c.eps2 * c.xtf)
    if |(step - step_old) / step| < c.stepTol then s
    else
      let s2 := cycleEval c.f c.x c.i c.xtf c.fVal step
      if |s.grd - s2.grd| / (|s2.grd| + c.dfmin / step) < c.gradTol then s2
      else diffCycles c j step s2

/-- The whole cycle loop for one parameter: `step_old` starts at `0.`
(part_000 line 154). -/
def diffParam (c : DiffCtx) (ncycle : ℕ) (s : GradState) : GradState :=
  diffCycles c ncycle 0 s

/-- `NumericalDerivatorMinuit2::Differentiate` (part_000 lines 117-219).
Computes `fVal = f(x)`, `dfmin = 8*eps2*(|fVal|+Up)`, `vrysml = 8*eps*eps`,
then refines every parameter's `(fGrd[i], fG2[i], fGstep[i])` independently
(the loop body touches only index `i` of the state vectors and restores
`x[i]` after each cycle, so the per-index map is exact).  Returns the cached
`fVal` together with the updated state vectors. -/
def Differentiate (f : List ℚ → ℚ) (sq : ℚ → ℚ) (stepTol gradTol : ℚ)
    (ncycle : ℕ) (up eps eps2 : ℚ) (x : List ℚ) (states : List GradState) :
    ℚ × List GradState :=
  let fVal := f x
  let dfmin := 8 * eps2 * (|fVal| + up)
  let vrysml := 8 * eps * eps
  (fVal, states.mapIdx fun i s =>
    diffParam
      ⟨f, sq, stepTol, gradTol, dfmin, vrysml, eps2, x, i, x.getD i 0, fVal,
        eps2 + |s.grd * eps2|⟩
      ncycle s)

/-- One parameter of `NumericalDerivatorMinuit2::SetInitialGradient`
(part_000 lines 272-283), from the already computed internal value
`var = x_i`, the internal widths `vplu`, `vmin` and the limit flag:
`gsmin = 8*eps2*(|var|+eps2)`;
`dirin = max(0.5*(|vplu|+|vmin|), gsmin)`;
`g2 = 2*Up/(dirin*dirin)`; `gstep = max(gsmin, 0.1*dirin)`;
`grd = g2*dirin`; `if (HasLimits()) { if (gstep > 0.5) gstep = 0.5; }`. -/
def SetInitialGradientParam (up eps2 var vplu vmin : ℚ) (hasLimits : Bool) :
    GradState :=
  let gsmin := 8 * eps2 * (|var| + eps2)
  let dirin := max (0.5 * (|vplu| + |vmin|)) gsmin
  let g2 := 2 * up / (dirin * dirin)
  let gstep0 := max gsmin (0.1 * dirin)
  let grd := g2 * dirin
  let gstep := if hasLimits then (if gstep0 > 0.5 then 0.5 else gstep0)
    else gstep0
  ⟨grd, g2, gstep⟩

/-- The initial-gradient formulas as the spec states them (spec section 4.3,
steps 3-5): `gsmin = 8*eps2*(|x_i|+eps2)`,
`dirin = max((|vplu|+|vmin|)/2, gsmin)`, `g2_i = 2*Up/dirin^2`,
`gstep_i = max(gsmin, 0.1*dirin)`, `grad_i = g2_i*dirin` (the 0.5 clamp of
step 6 for limited parameters is kept separate, to be compared with the
source's). -/
def specInitialGradient (up eps2 var vplu vmin : ℚ) : GradState :=
  let gsmin := 8 * eps2 * (|var| + eps2)
  let dirin := max ((|vplu| + |vmin|) / 2) gsmin
  ⟨(2 * up / dirin ^ 2) * dirin, 2 * up / dirin ^ 2, max gsmin (0.1 * dirin)⟩

/-- The gradient-tolerance convergence test in the form the spec gives it
(spec section 4.3 step 10 and section 9): the quotient
`|grad_prev − grad_i| / (|grad_i| + dfmin/step)` is below `grad_tolerance`,
the absolute value in the denominator taken over `grad_i` alone. -/
abbrev specGradConverged (gradTol dfmin gradPrev gradNew step : ℚ) : Prop :=
  |gradPrev - gradNew| / (|gradNew| + dfmin / step) < gradTol

/-- A concrete cycle context (zero function, zero square root, tolerances
`(1, 0)`, `dfmin = 0`, `vrysml = 8` as for `eps = 1`, the empty point):
input for witnesses. -/
def c10ctx : DiffCtx :=
  ⟨fun _ => 0, fun _ => 0, 1, 0, 0, 8, 0, [], 0, 0, 0, 0⟩

end NumDeriv

namespace MultiProcess

/-- A task identifier (`using Task = std::size_t`). -/
abbrev Task := ℕ

/-- `using JobTask = std::pair<std::size_t, Task>`: job id and task id. -/
abbrev JobTask := ℕ × Task

/-- Master-to-queue messages (MultiProcess_Vector.cxx lines 65-69), the
`enqueue` constructor carrying the `(job_object_id, task)` payload that the
queue reads right after the tag. -/
inductive M2Q where
  | terminate
  | enqueue (jt : JobTask)
  | retrieve
deriving DecidableEq, Repr

/-- Queue-to-master replies (lines 72-76); `retrieve_accepted` carries the
streamed payload `N_tasks` and the stored `(job_id, task, result)` items. -/
inductive Q2M where
  | retrieve_rejected
  | retrieve_accepted (n : ℕ) (items : List (JobTask × ℚ))
deriving DecidableEq, Repr

/-- Worker-to-queue messages (lines 79-83); `send_result` carries the
`(job_object_id, task, result)` payload.  (`W2Q::terminate` is only ever a
handshake after the queue itself terminates, and raises in `queue_loop`;
it is left out of the model.) -/
inductive W2Q where
  | dequeue
  | send_result (jt : JobTask) (r : ℚ)
deriving DecidableEq, Repr

/-- Queue-to-worker replies relevant to the queue loop (lines 86-93). -/
inductive Q2W where
  | dequeue_rejected
  | dequeue_accepted (jt : JobTask)
  | result_received
deriving DecidableEq, Repr

/-- The queue-process state of InterProcessQueueAndMessenger (lines
291-294): the FIFO of JobTasks, the count `N_tasks` of received (enqueued)
tasks, and the result store `std::map<JobTask, double> results` (embedded
as an association list with insert-or-overwrite; iteration order is the
only difference, and no claim depends on it). -/
structure QueueState where
  queue : List JobTask
  N_tasks : ℕ
  results : List (JobTask × ℚ)
deriving DecidableEq, Repr

/-- `results[job_task] = result` on a `std::map`: overwrite the existing
entry, else insert. -/
def upsert (m : List (JobTask × ℚ)) (jt : JobTask) (r : ℚ) :
    List (JobTask × ℚ) :=
  match m with
  | [] => [(jt, r)]
  | (k, v) :: rest =>
    if k = jt then (k, r) :: rest else (k, v) :: upsert rest jt r

/-- `InterProcessQueueAndMessenger::from_queue` (lines 795-803): pop the
head of the FIFO, or fail on an empty queue. -/
def from_queue (s : QueueState) : Option (JobTask × QueueState) :=
  match s.queue with
  | [] => none
  | jt :: rest => some (jt, { s with queue := rest })

/-- `InterProcessQueueAndMessenger::to_queue` on the queue process (lines
814-815): `queue.push(job_task)`, appending at the tail. -/
def to_queue (s : QueueState) (jt : JobTask) : QueueState :=
  { s with queue := s.queue ++ [jt] }

/-- `InterProcessQueueAndMessenger::process_queue_pipe_message` (lines
641-683).  Returns the new state, the optional reply to the master, and the
`carry_on` flag.  `enqueue`: `to_queue` then `N_tasks++`.  `retrieve`: if
`queue.empty() && results.size() == N_tasks`, reply `retrieve_accepted`,
stream `N_tasks` and every stored item, then `results.clear()` and
`N_tasks = 0`; else reply `retrieve_rejected` leaving the state as it was. -/
def process_queue_pipe_message (s : QueueState) :
    M2Q → QueueState × Option Q2M × Bool
  | .terminate => (s, none, false)
  | .enqueue jt => ({ to_queue s jt with N_tasks := s.N_tasks + 1 }, none, true)
  | .retrieve =>
    if s.queue = [] ∧ s.results.length = s.N_tasks then
      ({ s with results := [], N_tasks := 0 },
        some (.retrieve_accepted s.N_tasks s.results), true)
    else (s, some .retrieve_rejected, true)

/-- `InterProcessQueueAndMessenger::process_worker_pipe_message` (lines
714-745).  `dequeue`: pop the head and reply `dequeue_accepted(job_id,
task)`, or reply `dequeue_rejected` on an empty queue.  `send_result`:
reply `result_received` and store `results[job_task] = result`. -/
def process_worker_pipe_message (s : QueueState) :
    W2Q → QueueState × Q2W
  | .dequeue =>
    match from_queue s with
    | some (jt, s2) => (s2, .dequeue_accepted jt)
    | none => (s, .dequeue_rejected)
  | .send_result jt r =>
    ({ s with results := upsert s.results jt r }, .result_received)

/-- One incoming framed message of the queue loop, tagged with its origin
pipe (the master pipe, or the pipe of worker `w`). -/
inductive QMsg where
  | fromMaster (m : M2Q)
  | fromWorker (w : ℕ) (m : W2Q)
deriving DecidableEq, Repr

/-- One outgoing reply of the queue loop, tagged with its destination. -/
inductive QReply where
  | toMaster (r : Q2M)
  | toWorker (w : ℕ) (r : Q2W)
deriving DecidableEq, Repr

/-- Dispatch of one incoming message in `queue_loop` (lines 769-785): a
master-pipe message goes to `process_queue_pipe_message` (whose result is
the `carry_on` flag), a worker-pipe message to
`process_worker_pipe_message`. -/
def stepQueue (s : QueueState) : QMsg → QueueState × List QReply × Bool
  | .fromMaster m =>
    match process_queue_pipe_message s m with
    | (s2, r, carry) => (s2, (r.map QReply.toMaster).toList, carry)
  | .fromWorker w m =>
    match process_worker_pipe_message s m with
    | (s2, r) => (s2, [QReply.toWorker w r], true)

/-- The queue loop over a linear trace of incoming messages (the queue
process is single threaded: `poll` hands it one framed message at a time).
Stops when `carry_on` goes false (`M2Q::terminate`), like the `while
(carry_on)` loop of lines 753-789. -/
def runQueue (s : QueueState) : List QMsg → QueueState × List QReply
  | [] => (s, [])
  | m :: ms =>
    let r := stepQueue s m
    if r.2.2 then
      ((runQueue r.1 ms).1, r.2.1 ++ (runQueue r.1 ms).2)
    else (r.1, r.2.1)

/-- The tasks a trace enqueues, in order. -/
def enqueuedOf (msgs : List QMsg) : List JobTask :=
  msgs.filterMap fun m =>
    match m with
    | .fromMaster (.enqueue jt) => some jt
    | _ => none

/-- The tasks delivered to workers by `dequeue_accepted` replies, in order. -/
def deliveredOf (rs : List QReply) : List JobTask :=
  rs.filterMap fun r =>
    match r with
    | .toWorker _ (.dequeue_accepted jt) => some jt
    | _ => none

/-- The `(job_task, result)` payloads of the `send_result` messages of a
trace, in order. -/
def sentPairsOf (msgs : List QMsg) : List (JobTask × ℚ) :=
  msgs.filterMap fun m =>
    match m with
    | .fromWorker _ (.send_result jt r) => some (jt, r)
    | _ => none

/-- The task keys of the `send_result` messages of a trace, in order. -/
def sentKeysOf (msgs : List QMsg) : List JobTask :=
  (sentPairsOf msgs).map Prod.fst

/-- `countOcc jt l`: how many entries of `l` equal `jt`. -/
def countOcc (jt : JobTask) (l : List JobTask) : ℕ :=
  (l.filter fun k => k = jt).length

/-- `xSquaredPlusBVectorSerial::evaluate` (lines 42-47):
`result[ix] = pow(x[ix], 2) + b` for every index. -/
def serialEvaluate (b : ℚ) (x : List ℚ) : List ℚ :=
  x.map fun v => v ^ 2 + b

/-- The job task of a worker when `dequeue_accepted` arrives (lines
351-362): a `JobTask` extracted from a one-reply list, `none` for
`dequeue_rejected` (and anything that is not a single dequeue handshake). -/
def replyJobTask : List QReply → Option JobTask
  | [QReply.toWorker _ (Q2W.dequeue_accepted jt)] => some jt
  | _ => none

/-- The work-mode worker loop against the queue state machine, with `W`
workers served round robin (worker `k % W` acts at turn `k`; task results
are keyed by task id, so the interleaving does not matter). Each turn is
one synchronous exchange of `Job::worker_loop` (lines 334-363): send
`W2Q::dequeue`; on `dequeue_accepted (job_id, task)` evaluate the task and
send `W2Q::send_result` with the result, then continue; on
`dequeue_rejected` stop (the queue is empty: every task of this run was
already handed out).  `fuel` bounds the recursion; `N_tasks + 1` turns
suffice. -/
def simWorkers (evalTask : JobTask → ℚ) (W : ℕ) :
    ℕ → ℕ → QueueState → QueueState
  | 0, _, s => s
  | fuel + 1, k, s =>
    match stepQueue s (.fromWorker (k % W) .dequeue) with
    | (s2, rs, _) =>
      match replyJobTask rs with
      | some jt =>
        simWorkers evalTask W fuel (k + 1)
          (stepQueue s2 (.fromWorker (k % W) (.send_result jt (evalTask jt)))).1
      | none => s2

/-- The `retrieve_accepted` payload of a one-reply list, `none` on
`retrieve_rejected`. -/
def acceptedItems : List QReply → Option (List (JobTask × ℚ))
  | [QReply.toMaster (Q2M.retrieve_accepted _ items)] => some items
  | _ => none

/-- Look a task's result up in the streamed items (the master's
`results[job_task] = result` loop of lines 699-706 followed by the
`ipqm_results` selection of lines 907-911). -/
def lookupResult (items : List (JobTask × ℚ)) (jt : JobTask) : ℚ :=
  match items with
  | [] => 0
  | (k, v) :: rest => if k = jt then v else lookupResult rest jt

/-- `xSquaredPlusBVectorParallel` evaluation through the queue protocol
(lines 935-951 with the worker side of lines 955-963): the master enqueues
one task per component (`to_queue`, reaching the queue as `M2Q::enqueue`),
the `W` workers drain the queue computing `pow(x[task], 2) + b`, the master
retrieves, and `result[ix] = ipqm_results[ix]`. -/
def parallelGetResult (W : ℕ) (b : ℚ) (x : List ℚ) : List ℚ :=
  let jobId := 0
  let evalTask : JobTask → ℚ := fun jt => (x.getD jt.2 0) ^ 2 + b
  let s0 : QueueState := ⟨[], 0, []⟩
  let s1 := (List.range x.length).foldl
    (fun s ix => (stepQueue s (.fromMaster (.enqueue (jobId, ix)))).1) s0
  let s2 := simWorkers evalTask W (x.length + 1) 0 s1
  match acceptedItems (stepQueue s2 (.fromMaster .retrieve)).2.1 with
  | some items => (List.range x.length).map fun ix => lookupResult items (jobId, ix)
  | none => []

/-- The process-wide static state behind job registration (lines 849-852):
`job_counter`, the registry `job_objects` (embedded as the list of
registered job ids; the `Job*` values play no role in the claims) and the
`queue_activated` flag of the manager (line 295). -/
structure ManagerState where
  job_counter : ℕ
  job_objects : List ℕ
  queue_activated : Bool
deriving DecidableEq, Repr

/-- `InterProcessQueueAndMessenger::add_job_object` (MultiProcess_Vector.cxx
lines 574-578): `job_id = job_counter++; job_objects[job_id] = job_object;
return job_id`.  This early prototype performs no activation check; the
newer `TaskManager::add_job_object` (`TaskManager_add_job_object` below)
puts one in front of the same body. -/
def add_job_object (s : ManagerState) : ℕ × ManagerState :=
  (s.job_counter,
    { s with job_counter := s.job_counter + 1,
             job_objects := s.job_objects ++ [s.job_counter] })

/-- The `std::logic_error` of `TaskManager::add_job_object`: "Cannot add Job
to activated TaskManager instantiation (forking has already taken
place)". -/
inductive AddJobError where
  | activated
deriving DecidableEq, Repr

/-- The process-wide static state of the newer `TaskManager`
(src/bindings/r/CMakeLists.txt): whether the singleton `_instance` exists
(`is_instantiated()`, line 100), the instance's `queue_activated` flag —
set by `activate()` (line 354) right after `initialize_processes()` forks
the workers and the queue, cleared again by `terminate()` — and the static
`job_counter` and `job_objects` registry (the registered job ids; the
`Job*` values play no role in the claims). -/
structure TMState where
  instantiated : Bool
  queue_activated : Bool
  job_counter : ℕ
  job_objects : List ℕ
deriving DecidableEq, Repr

/-- `TaskManager::add_job_object` (src/bindings/r/CMakeLists.txt lines
291-302): if the manager is instantiated and that instance is activated,
registration throws the "Cannot add Job to activated TaskManager
instantiation (forking has already taken place)" logic_error; otherwise
`job_id = job_counter++; job_objects[job_id] = job_object; return
job_id`. -/
def TaskManager_add_job_object (s : TMState) :
    Except AddJobError (ℕ × TMState) :=
  if s.instantiated ∧ s.queue_activated then .error .activated
  else
    .ok (s.job_counter,
      { s with job_counter := s.job_counter + 1,
               job_objects := s.job_objects ++ [s.job_counter] })

end MultiProcess

namespace NumDeriv

/-- The clamped step never drops below `stpmin = max(vrysml, 8*|eps2*x_i|)`:
either the lower clamp fires (giving `stpmin` itself), or the step already
was at least `stpmin`. -/
theorem cycleStep_stpmin_le (optstp gstep vrysml e2x : ℚ) :
    max vrysml (8 * |e2x|) ≤ cycleStep optstp gstep vrysml e2x := by
  simp only [cycleStep]
  split_ifs <;> linarith

/-- With `vrysml > 0` the clamped step is strictly positive. -/
theorem cycleStep_pos (optstp gstep vrysml e2x : ℚ) (hv : 0 < vrysml) :
    0 < cycleStep optstp gstep vrysml e2x :=
  lt_of_lt_of_le (lt_of_lt_of_le hv (le_max_left _ _))
    (cycleStep_stpmin_le optstp gstep vrysml e2x)

/-- C1 (amended): `Differentiate` itself applies no 0.5 clamp; the clamp
lives in `Numerical2PGradientCalculator::operator()`, where (1) with
`HasLimits()` false its cycle step equals `Differentiate`'s, (2) with
limits, whenever the lower clamp bound `max(vrysml, 8*|eps2*x_i|)` is at
most 0.5 the chosen step is at most 0.5 (the clamp is applied to the
candidate before the upper clamp), and (3) whenever that lower bound
exceeds 0.5 the lower clamp overrides the 0.5 clamp and returns the bound —
which is only possible because the 0.5 clamp is applied before the lower
clamp. -/
theorem C1_minuit2_limited_step_clamp (optstp gstep vrysml e2x : ℚ) :
    minuit2CycleStep false optstp gstep vrysml e2x =
      cycleStep optstp gstep vrysml e2x ∧
    (max vrysml (8 * |e2x|) ≤ 0.5 →
      minuit2CycleStep true optstp gstep vrysml e2x ≤ 0.5) ∧
    (0.5 < max vrysml (8 * |e2x|) →
      minuit2CycleStep true optstp gstep vrysml e2x =
        max vrysml (8 * |e2x|)) := by
  refine ⟨?_, ?_, ?_⟩
  · simp only [minuit2CycleStep, cycleStep, Bool.false_eq_true, if_false]
  · intro h
    simp only [minuit2CycleStep, if_true]
    split_ifs <;> linarith
  · intro h
    simp only [minuit2CycleStep, if_true]
    split_ifs <;> first | rfl | linarith

set_option maxHeartbeats 1000000 in
/-- C1 (counterexample): a concrete one-parameter `Differentiate` call in
which the first cycle's candidate step is 2 and survives every clamp of the
source: the returned `fGstep[0]` is 2 > 0.5, so no clamp to 0.5 happens in
`Differentiate`, whatever the limit status of the parameter (the derivator
never consults limits).  Data: `f ≡ 0`, `x = [0]`, `Up = 0.5`,
`eps = 2^-52`, `eps2 = 2^-26`, tolerances `(0.5, 0.1)`, 2 cycles, initial
state `(0, 0, 1)`; then `dfmin = 4*eps2`, `epspri = eps2`, and
`optstp = sqrt(4) = 2`. -/
theorem C1_differentiate_no_half_clamp_cex :
    (1 : ℚ) / 2 <
      (((Differentiate (fun _ => 0) (fun q => if q = 4 then 2 else 0) 0.5 0.1
            2 0.5 (1 / 4503599627370496) (1 / 67108864) [0]
            [⟨0, 0, 1⟩]).2.getD 0 ⟨0, 0, 0⟩).gstep) := by
  norm_num [Differentiate, diffParam, diffCycles, cycleStep, cycleEval,
    List.mapIdx_singleton, abs_of_nonneg]

/-- C3: after `SetInitialGradient`, with `gsmin = 8*eps2*(|x_i|+eps2)` and
`dirin = max((|vplu|+|vmin|)/2, gsmin)`, the state is seeded with
`g2_i = 2*Up/dirin^2`, `grad_i = g2_i*dirin` and
`gstep_i = max(gsmin, 0.1*dirin)` (for a limited parameter additionally
clamped to 0.5, i.e. the minimum of that value with 0.5); in particular
`g2_i ≥ 0` whenever `Up ≥ 0`, and `gstep_i ≤ 0.5` for every limited
parameter. -/
theorem C3_initial_gradient_seeding (up eps2 var vplu vmin : ℚ) (lim : Bool) :
    (SetInitialGradientParam up eps2 var vplu vmin lim).g2 =
      (specInitialGradient up eps2 var vplu vmin).g2 ∧
    (SetInitialGradientParam up eps2 var vplu vmin lim).grd =
      (specInitialGradient up eps2 var vplu vmin).grd ∧
    (lim = false →
      (SetInitialGradientParam up eps2 var vplu vmin lim).gstep =
        (specInitialGradient up eps2 var vplu vmin).gstep) ∧
    (lim = true →
      (SetInitialGradientParam up eps2 var vplu vmin lim).gstep =
        min ((specInitialGradient up eps2 var vplu vmin).gstep) 0.5) ∧
    (0 ≤ up → 0 ≤ (SetInitialGradientParam up eps2 var vplu vmin lim).g2) ∧
    (lim = true →
      (SetInitialGradientParam up eps2 var vplu vmin lim).gstep ≤ 0.5) := by
  have hdir : (0.5 : ℚ) * (|vplu| + |vmin|) = (|vplu| + |vmin|) / 2 := by
    ring
  have hsq : ∀ d : ℚ, 2 * up / d ^ 2 = 2 * up / (d * d) := by
    intro d; rw [sq]
  refine ⟨?_, ?_, ?_, ?_, ?_, ?_⟩
  · simp only [SetInitialGradientParam, specInitialGradient, hdir, hsq]
  · simp only [SetInitialGradientParam, specInitialGradient, hdir, hsq]
  · intro h
    simp only [SetInitialGradientParam, specInitialGradient, hdir, hsq, h,
      Bool.false_eq_true, if_false]
  · intro h
    simp only [SetInitialGradientParam, specInitialGradient, hdir, hsq, h,
      if_true]
    split_ifs with hgt
    · rw [min_eq_right (le_of_lt hgt)]
    · rw [min_eq_left (le_of_not_lt hgt)]
  · intro h
    simp only [SetInitialGradientParam]
    exact div_nonneg (by linarith) (mul_self_nonneg _)
  · intro h
    simp only [SetInitialGradientParam, h, if_true]
    split_ifs with hgt
    · exact le_refl _
    · exact le_of_not_lt hgt

/-- C6: one unrolled cycle of `Differentiate`.  After the step-size test,
the derivative-convergence break is governed exactly by the spec's form of
the test, `|grad_prev − grad_i| / (|grad_i| + dfmin/step) < grad_tolerance`
(absolute value over `grad_i` alone in the denominator), and when it holds
the loop stops at once, returning this cycle's computed
`(grad_i, g2_i, gstep_i)` unchanged — whatever the number of remaining
cycles `j`. -/
theorem C6_grad_tolerance_test (c : DiffCtx) (j : ℕ) (step_old : ℚ)
    (s : GradState) :
    diffCycles c (j + 1) step_old s =
      (let optstp := c.sq (c.dfmin / (|s.g2| + c.epspri))
       let step := cycleStep optstp s.gstep c.vrysml (c.eps2 * c.xtf)
       if |(step - step_old) / step| < c.stepTol then s
       else
         let s2 := cycleEval c.f c.x c.i c.xtf c.fVal step
         if specGradConverged c.gradTol c.dfmin s.grd s2.grd step then s2
         else diffCycles c j step s2) := by
  rfl

/-- C7: whatever `optstp` the square root returned and whatever the current
`gstep`, the per-cycle step of `Differentiate` after the lower clamp is at
least `max(vrysml, 8*|eps2*x_i|)`, and with `eps > 0` (so
`vrysml = 8*eps*eps > 0`) it is strictly positive and in particular
nonzero: the divisions by `step` in `fGrd[i] = 0.5*(fs1-fs2)/step`, by
`step*step` in `fG2[i]`, and by `step` in both convergence tests never
divide by zero. -/
theorem C7_step_positive (optstp gstep eps e2x : ℚ) (heps : 0 < eps) :
    max (8 * eps * eps) (8 * |e2x|) ≤
      cycleStep optstp gstep (8 * eps * eps) e2x ∧
    0 < cycleStep optstp gstep (8 * eps * eps) e2x ∧
    cycleStep optstp gstep (8 * eps * eps) e2x ≠ 0 := by
  have hv : 0 < 8 * eps * eps := by positivity
  have hpos := cycleStep_pos optstp gstep (8 * eps * eps) e2x hv
  exact ⟨cycleStep_stpmin_le optstp gstep (8 * eps * eps) e2x, hpos,
    ne_of_gt hpos⟩

/-- C7 (witness): the bound at `optstp = 0`, `gstep = 0`, `eps = 1`,
`e2x = 0`. -/
theorem C7_step_positive_witness :
    max (8 * 1 * 1) (8 * |(0 : ℚ)|) ≤ cycleStep 0 0 (8 * 1 * 1) 0 ∧
    0 < cycleStep 0 0 (8 * 1 * 1) 0 ∧
    cycleStep 0 0 (8 * 1 * 1) 0 ≠ 0 :=
  C7_step_positive 0 0 1 0 (by norm_num)

/-- C8: `Differentiate` is deterministic — two calls at the same point with
the same initial `(grad, g2, gstep)` state, tolerances, cycle count, error
level and the same pure `f` (and square root) produce the same cached
`fVal` and identical output vectors. -/
theorem C8_differentiate_deterministic (f1 f2 : List ℚ → ℚ)
    (sq1 sq2 : ℚ → ℚ) (stepTol gradTol : ℚ) (ncycle : ℕ) (up eps eps2 : ℚ)
    (x : List ℚ) (states : List GradState) (hf : ∀ y, f1 y = f2 y)
    (hs : ∀ q, sq1 q = sq2 q) :
    Differentiate f1 sq1 stepTol gradTol ncycle up eps eps2 x states =
      Differentiate f2 sq2 stepTol gradTol ncycle up eps eps2 x states := by
  obtain rfl : f1 = f2 := funext hf
  obtain rfl : sq1 = sq2 := funext hs
  rfl

/-- C8 (witness): the two runs coincide at a concrete instance. -/
theorem C8_differentiate_deterministic_witness :
    Differentiate (fun _ => 0) (fun _ => 0) 1 1 1 1 1 1 [0] [⟨0, 0, 1⟩] =
      Differentiate (fun _ => 0) (fun _ => 0) 1 1 1 1 1 1 [0] [⟨0, 0, 1⟩] :=
  C8_differentiate_deterministic _ _ _ _ 1 1 1 1 1 1 [0] [⟨0, 0, 1⟩]
    (fun _ => rfl) (fun _ => rfl)

/-- C10: `diffParam` starts its cycle loop with `step_old = 0`, so on the
first cycle the step-size ratio `|(step - step_old)/step|` is exactly 1
(the clamped step is nonzero when `vrysml = 8*eps*eps` with `eps > 0`);
hence for any `step_tolerance ≤ 1` and any positive number of cycles the
first cycle never breaks at the step-size test: the loop always reaches the
two evaluations of `f` at `x_i ± step` and the update of
`(grad_i, g2_i, gstep_i)` (`cycleEval`). -/
theorem C10_first_cycle_runs (c : DiffCtx) (j : ℕ) (s : GradState) (eps : ℚ)
    (hv : c.vrysml = 8 * eps * eps) (heps : 0 < eps) (htol : c.stepTol ≤ 1) :
    diffParam c (j + 1) s = diffCycles c (j + 1) 0 s ∧
    |(cycleStep (c.sq (c.dfmin / (|s.g2| + c.epspri))) s.gstep c.vrysml
        (c.eps2 * c.xtf) - 0) /
      cycleStep (c.sq (c.dfmin / (|s.g2| + c.epspri))) s.gstep c.vrysml
        (c.eps2 * c.xtf)| = 1 ∧
    diffCycles c (j + 1) 0 s =
      (let step := cycleStep (c.sq (c.dfmin / (|s.g2| + c.epspri))) s.gstep
         c.vrysml (c.eps2 * c.xtf)
       let s2 := cycleEval c.f c.x c.i c.xtf c.fVal step
       if |s.grd - s2.grd| / (|s2.grd| + c.dfmin / step) < c.gradTol then s2
       else diffCycles c j step s2) := by
  have hpos : 0 < cycleStep (c.sq (c.dfmin / (|s.g2| + c.epspri))) s.gstep
      c.vrysml (c.eps2 * c.xtf) := by
    rw [hv]; exact cycleStep_pos _ _ _ _ (by positivity)
  have hratio : |(cycleStep (c.sq (c.dfmin / (|s.g2| + c.epspri))) s.gstep
      c.vrysml (c.eps2 * c.xtf) - 0) /
      cycleStep (c.sq (c.dfmin / (|s.g2| + c.epspri))) s.gstep c.vrysml
        (c.eps2 * c.xtf)| = 1 := by
    rw [sub_zero, div_self (ne_of_gt hpos), abs_one]
  refine ⟨rfl, hratio, ?_⟩
  have hnot : ¬(|(cycleStep (c.sq (c.dfmin / (|s.g2| + c.epspri))) s.gstep
      c.vrysml (c.eps2 * c.xtf) - 0) /
      cycleStep (c.sq (c.dfmin / (|s.g2| + c.epspri))) s.gstep c.vrysml
        (c.eps2 * c.xtf)| < c.stepTol) := by
    rw [hratio]
    intro hlt
    exact absurd (lt_of_lt_of_le hlt htol) (lt_irrefl 1)
  simp only [diffCycles]
  rw [if_neg hnot]

/-- C10 (witness): the unrolled first cycle at the concrete context
`c10ctx` (where `vrysml = 8 = 8*1*1`, `step_tolerance = 1`) and the zero
initial state. -/
theorem C10_first_cycle_runs_witness :
    diffParam c10ctx (0 + 1) ⟨0, 0, 0⟩ =
      diffCycles c10ctx (0 + 1) 0 ⟨0, 0, 0⟩ ∧
    |(cycleStep
        (c10ctx.sq (c10ctx.dfmin / (|GradState.g2 ⟨0, 0, 0⟩| + c10ctx.epspri)))
        (GradState.gstep ⟨0, 0, 0⟩) c10ctx.vrysml (c10ctx.eps2 * c10ctx.xtf) -
          0) /
      cycleStep
        (c10ctx.sq (c10ctx.dfmin / (|GradState.g2 ⟨0, 0, 0⟩| + c10ctx.epspri)))
        (GradState.gstep ⟨0, 0, 0⟩) c10ctx.vrysml (c10ctx.eps2 * c10ctx.xtf)|
      = 1 ∧
    diffCycles c10ctx (0 + 1) 0 ⟨0, 0, 0⟩ =
      (let step := cycleStep
        (c10ctx.sq (c10ctx.dfmin / (|GradState.g2 ⟨0, 0, 0⟩| + c10ctx.epspri)))
        (GradState.gstep ⟨0, 0, 0⟩) c10ctx.vrysml (c10ctx.eps2 * c10ctx.xtf)
       let s2 := cycleEval c10ctx.f c10ctx.x c10ctx.i c10ctx.xtf c10ctx.fVal
         step
       if |GradState.grd ⟨0, 0, 0⟩ - s2.grd| / (|s2.grd| + c10ctx.dfmin / step) <
           c10ctx.gradTol then s2
       else diffCycles c10ctx 0 step s2) :=
  C10_first_cycle_runs c10ctx 0 ⟨0, 0, 0⟩ 1 (by norm_num [c10ctx]) one_pos
    (le_of_eq (by norm_num [c10ctx]))

end NumDeriv

namespace MultiProcess

/-- Unfolding of `stepQueue` on an `enqueue` message. -/
theorem stepQueue_enqueue (s : QueueState) (jt : JobTask) :
    stepQueue s (.fromMaster (.enqueue jt)) =
      (⟨s.queue ++ [jt], s.N_tasks + 1, s.results⟩, [], true) := rfl

/-- Unfolding of `stepQueue` on a `retrieve` message. -/
theorem stepQueue_retrieve (s : QueueState) :
    stepQueue s (.fromMaster .retrieve) =
      if s.queue = [] ∧ s.results.length = s.N_tasks then
        (⟨s.queue, 0, []⟩,
          [.toMaster (.retrieve_accepted s.N_tasks s.results)], true)
      else (s, [.toMaster .retrieve_rejected], true) := by
  by_cases hc : s.queue = [] ∧ s.results.length = s.N_tasks <;>
    simp [stepQueue, process_queue_pipe_message, hc]

/-- Unfolding of `stepQueue` on a `dequeue` message, empty queue. -/
theorem stepQueue_dequeue_nil (n : ℕ) (res : List (JobTask × ℚ)) (w : ℕ) :
    stepQueue ⟨[], n, res⟩ (.fromWorker w .dequeue) =
      (⟨[], n, res⟩, [.toWorker w .dequeue_rejected], true) := rfl

/-- Unfolding of `stepQueue` on a `dequeue` message, nonempty queue. -/
theorem stepQueue_dequeue_cons (jt : JobTask) (q : List JobTask) (n : ℕ)
    (res : List (JobTask × ℚ)) (w : ℕ) :
    stepQueue ⟨jt :: q, n, res⟩ (.fromWorker w .dequeue) =
      (⟨q, n, res⟩, [.toWorker w (.dequeue_accepted jt)], true) := rfl

/-- Unfolding of `stepQueue` on a `send_result` message. -/
theorem stepQueue_send (s : QueueState) (w : ℕ) (jt : JobTask) (r : ℚ) :
    stepQueue s (.fromWorker w (.send_result jt r)) =
      ({ s with results := upsert s.results jt r },
        [.toWorker w .result_received], true) := rfl

/-- FIFO conservation: over any trace without `terminate`, the tasks that
entered the queue (those initially there and those enqueued) are exactly the
delivered ones followed by those still queued, in order. -/
theorem runQueue_fifo (msgs : List QMsg) :
    ∀ s : QueueState, (∀ m ∈ msgs, m ≠ QMsg.fromMaster M2Q.terminate) →
      s.queue ++ enqueuedOf msgs =
        deliveredOf (runQueue s msgs).2 ++ (runQueue s msgs).1.queue := by
  induction msgs with
  | nil =>
    intro s _
    simp [runQueue, enqueuedOf, deliveredOf]
  | cons m ms ih =>
    intro s h
    have hms : ∀ x ∈ ms, x ≠ QMsg.fromMaster M2Q.terminate := fun x hx =>
      h x (List.mem_cons_of_mem m hx)
    cases m with
    | fromMaster mm =>
      cases mm with
      | terminate => exact absurd rfl (h _ (List.mem_cons_self _ _))
      | enqueue jt =>
        simpa [runQueue, stepQueue_enqueue, enqueuedOf, deliveredOf,
          List.filterMap_cons, List.append_assoc] using
          ih ⟨s.queue ++ [jt], s.N_tasks + 1, s.results⟩ hms
      | retrieve =>
        by_cases hc : s.queue = [] ∧ s.results.length = s.N_tasks
        · simpa [runQueue, stepQueue_retrieve, hc, enqueuedOf, deliveredOf,
            List.filterMap_cons] using ih ⟨s.queue, 0, []⟩ hms
        · simpa [runQueue, stepQueue_retrieve, hc, enqueuedOf, deliveredOf,
            List.filterMap_cons] using ih s hms
    | fromWorker w wm =>
      cases wm with
      | dequeue =>
        obtain ⟨q, n, res⟩ := s
        cases q with
        | nil =>
          simpa [runQueue, stepQueue_dequeue_nil, enqueuedOf, deliveredOf,
            List.filterMap_cons] using ih ⟨[], n, res⟩ hms
        | cons jt rest =>
          simpa [runQueue, stepQueue_dequeue_cons, enqueuedOf, deliveredOf,
            List.filterMap_cons] using ih ⟨rest, n, res⟩ hms
      | send_result jt r =>
        simpa [runQueue, stepQueue_send, enqueuedOf, deliveredOf,
          List.filterMap_cons] using
          ih ⟨s.queue, s.N_tasks, upsert s.results jt r⟩ hms

/-- Result accumulation: over any trace without `terminate` and `retrieve`,
the final result store is the initial one with every `send_result` payload
upserted, in message order. -/
theorem runQueue_results (msgs : List QMsg) :
    ∀ s : QueueState,
      (∀ m ∈ msgs, m ≠ QMsg.fromMaster M2Q.terminate ∧
        m ≠ QMsg.fromMaster M2Q.retrieve) →
      (runQueue s msgs).1.results =
        (sentPairsOf msgs).foldl (fun acc p => upsert acc p.1 p.2)
          s.results := by
  induction msgs with
  | nil =>
    intro s _
    simp [runQueue, sentPairsOf]
  | cons m ms ih =>
    intro s h
    have hms : ∀ x ∈ ms, x ≠ QMsg.fromMaster M2Q.terminate ∧
        x ≠ QMsg.fromMaster M2Q.retrieve := fun x hx =>
      h x (List.mem_cons_of_mem m hx)
    cases m with
    | fromMaster mm =>
      cases mm with
      | terminate => exact absurd rfl (h _ (List.mem_cons_self _ _)).1
      | enqueue jt =>
        simpa [runQueue, stepQueue_enqueue, sentPairsOf,
          List.filterMap_cons] using
          ih ⟨s.queue ++ [jt], s.N_tasks + 1, s.results⟩ hms
      | retrieve => exact absurd rfl (h _ (List.mem_cons_self _ _)).2
    | fromWorker w wm =>
      cases wm with
      | dequeue =>
        obtain ⟨q, n, res⟩ := s
        cases q with
        | nil =>
          simpa [runQueue, stepQueue_dequeue_nil, sentPairsOf,
            List.filterMap_cons] using ih ⟨[], n, res⟩ hms
        | cons jt rest =>
          simpa [runQueue, stepQueue_dequeue_cons, sentPairsOf,
            List.filterMap_cons] using ih ⟨rest, n, res⟩ hms
      | send_result jt r =>
        simpa [runQueue, stepQueue_send, sentPairsOf,
          List.filterMap_cons] using
          ih ⟨s.queue, s.N_tasks, upsert s.results jt r⟩ hms

/-- Inserting a fresh key appends at the tail of the store. -/
theorem upsert_not_mem (m : List (JobTask × ℚ)) (jt : JobTask) (r : ℚ) :
    jt ∉ m.map Prod.fst → upsert m jt r = m ++ [(jt, r)] := by
  induction m with
  | nil => intro _; rfl
  | cons p ps ih =>
    intro h
    obtain ⟨k, v⟩ := p
    simp only [List.map_cons, List.mem_cons, not_or] at h
    have hk : ¬k = jt := fun hkj => h.1 (Eq.symm hkj)
    simp only [upsert, if_neg hk]
    rw [ih h.2, List.cons_append]

/-- Folding upserts of pairwise-fresh pairs into a store that contains none
of their keys appends the pairs. -/
theorem foldl_upsert_of_nodup (pairs : List (JobTask × ℚ)) :
    ∀ m : List (JobTask × ℚ), (pairs.map Prod.fst).Nodup →
      (∀ p ∈ pairs, p.1 ∉ m.map Prod.fst) →
      pairs.foldl (fun acc p => upsert acc p.1 p.2) m = m ++ pairs := by
  induction pairs with
  | nil => intro m _ _; simp
  | cons p ps ih =>
    intro m hnd hdis
    simp only [List.map_cons, List.nodup_cons] at hnd
    have hfresh : ∀ q ∈ ps, q.1 ∉ (m ++ [(p.1, p.2)]).map Prod.fst := by
      intro q hq
      simp only [List.map_append, List.map_cons, List.map_nil,
        List.mem_append, List.mem_cons, List.not_mem_nil, or_false, not_or]
      refine ⟨fun hqm => hdis q (List.mem_cons_of_mem _ hq) hqm, ?_⟩
      intro hqp
      exact hnd.1 (hqp ▸ List.mem_map_of_mem Prod.fst hq)
    rw [List.foldl_cons,
      upsert_not_mem m p.1 p.2 (hdis p (List.mem_cons_self _ _)),
      ih (m ++ [(p.1, p.2)]) hnd.2 hfresh]
    simp


/-- In a duplicate-free list every member occurs exactly once. -/
theorem countOcc_eq_one (l : List JobTask) (jt : JobTask) :
    l.Nodup → jt ∈ l → countOcc jt l = 1 := by
  induction l with
  | nil => intro _ hm; cases hm
  | cons a t ih =>
    intro hnd hm
    simp only [List.nodup_cons] at hnd
    rcases List.mem_cons.mp hm with h1 | h2
    · subst h1
      simp only [countOcc, List.filter_cons, decide_eq_true_eq, if_pos rfl]
      have : t.filter (fun k => decide (k = jt)) = [] := by
        rw [List.filter_eq_nil_iff]
        intro k hk
        simp only [decide_eq_true_eq]
        intro hkj
        exact hnd.1 (hkj ▸ hk)
      simp [this]
    · have hne : ¬a = jt := by
        intro he
        exact hnd.1 (he ▸ h2)
      simp only [countOcc, List.filter_cons]
      rw [if_neg (by simpa using hne)]
      exact ih hnd.2 h2

/-- Occurrence counts are invariant under permutation: completion order
does not matter. -/
theorem countOcc_perm (jt : JobTask) {l l2 : List JobTask}
    (h : l.Perm l2) : countOcc jt l = countOcc jt l2 :=
  (h.filter _).length_eq

/-- C2: on `M2Q::retrieve` the queue replies `retrieve_accepted` (streaming
`N_tasks` and all stored results) precisely when the FIFO is empty and the
number of recorded results equals the number of enqueued tasks; on
acceptance the result store is cleared and the task counter reset to zero
(queue untouched); otherwise it replies `retrieve_rejected` and the whole
state is unchanged. -/
theorem C2_retrieve_accept_iff (s : QueueState) :
    ((process_queue_pipe_message s .retrieve).2.1 =
        some (.retrieve_accepted s.N_tasks s.results) ↔
      s.queue = [] ∧ s.results.length = s.N_tasks) ∧
    (s.queue = [] ∧ s.results.length = s.N_tasks →
      (process_queue_pipe_message s .retrieve).1 =
        ⟨s.queue, 0, []⟩) ∧
    (¬(s.queue = [] ∧ s.results.length = s.N_tasks) →
      (process_queue_pipe_message s .retrieve).2.1 = some .retrieve_rejected ∧
      (process_queue_pipe_message s .retrieve).1 = s) := by
  by_cases hc : s.queue = [] ∧ s.results.length = s.N_tasks <;>
    simp [process_queue_pipe_message, hc]

/-- C4: (i) `M2Q::enqueue` appends the task at the tail of the FIFO;
(ii) `W2Q::dequeue` is answered `dequeue_accepted` with the popped head
exactly when the queue is nonempty, and `dequeue_rejected` (state
unchanged) when it is empty; (iii) consequently, over any trace of
enqueue/dequeue/send_result messages that drains the queue, in which
workers return exactly one result per delivered task — in any completion
order: the `send_result` keys need only be a permutation of the delivered
tasks, as out-of-order multi-worker completions reorder them — every
enqueued task (all distinct) is delivered exactly once and ends with
exactly one recorded result. -/
theorem C4_fifo_exactly_once :
    (∀ (s : QueueState) (jt : JobTask),
        (process_queue_pipe_message s (.enqueue jt)).1.queue =
          s.queue ++ [jt]) ∧
    (∀ s : QueueState,
        (s.queue = [] →
          process_worker_pipe_message s .dequeue = (s, .dequeue_rejected)) ∧
        (∀ jt rest, s.queue = jt :: rest →
          process_worker_pipe_message s .dequeue =
            ({ s with queue := rest }, .dequeue_accepted jt))) ∧
    (∀ msgs : List QMsg,
        (∀ m ∈ msgs, m ≠ QMsg.fromMaster M2Q.terminate ∧
          m ≠ QMsg.fromMaster M2Q.retrieve) →
        (runQueue ⟨[], 0, []⟩ msgs).1.queue = [] →
        (enqueuedOf msgs).Nodup →
        (sentKeysOf msgs).Perm (deliveredOf (runQueue ⟨[], 0, []⟩ msgs).2) →
        ∀ jt ∈ enqueuedOf msgs,
          countOcc jt (deliveredOf (runQueue ⟨[], 0, []⟩ msgs).2) = 1 ∧
          countOcc jt ((runQueue ⟨[], 0, []⟩ msgs).1.results.map Prod.fst) =
            1) := by
  refine ⟨fun s jt => rfl, ?_, ?_⟩
  · intro s
    constructor
    · intro hq
      obtain ⟨q, n, res⟩ := s
      cases hq
      rfl
    · intro jt rest hq
      obtain ⟨q, n, res⟩ := s
      cases hq
      rfl
  · intro msgs hctl hdrained hnd hsk jt hjt
    have hterm : ∀ m ∈ msgs, m ≠ QMsg.fromMaster M2Q.terminate := fun m hm =>
      (hctl m hm).1
    have hfifo := runQueue_fifo msgs ⟨[], 0, []⟩ hterm
    rw [hdrained] at hfifo
    simp only [List.append_nil, List.nil_append] at hfifo
    have hcount : countOcc jt (deliveredOf (runQueue ⟨[], 0, []⟩ msgs).2) = 1 := by
      rw [← hfifo]
      exact countOcc_eq_one _ jt hnd hjt
    refine ⟨hcount, ?_⟩
    have hres := runQueue_results msgs ⟨[], 0, []⟩ hctl
    have hdelnd : (deliveredOf (runQueue ⟨[], 0, []⟩ msgs).2).Nodup :=
      hfifo ▸ hnd
    have hkeysnd : ((sentPairsOf msgs).map Prod.fst).Nodup :=
      hsk.nodup_iff.mpr hdelnd
    rw [hres, foldl_upsert_of_nodup (sentPairsOf msgs) [] hkeysnd
      (by intro p _; simp)]
    rw [List.nil_append,
      show (sentPairsOf msgs).map Prod.fst = sentKeysOf msgs from rfl,
      countOcc_perm jt hsk]
    exact hcount

/-- C5: `TaskManager::add_job_object` fails with the "activated"
logic_error exactly on an instantiated, already-activated manager
(activation happens right after the first fork, in `activate()`); in every
other state registration succeeds, handing out `job_counter` as the job id,
incrementing the counter and appending the job to the registry — and a
successful registration certifies the manager was not yet activated (or
not yet instantiated at all). -/
theorem C5_add_job_activated_error (s : TMState) :
    (s.instantiated = true → s.queue_activated = true →
      TaskManager_add_job_object s = .error .activated) ∧
    (s.queue_activated = false ∨ s.instantiated = false →
      TaskManager_add_job_object s =
        .ok (s.job_counter,
          { s with job_counter := s.job_counter + 1,
                   job_objects := s.job_objects ++ [s.job_counter] })) ∧
    (∀ (jid : ℕ) (s2 : TMState),
      TaskManager_add_job_object s = .ok (jid, s2) →
      s.instantiated = false ∨ s.queue_activated = false) := by
  refine ⟨?_, ?_, ?_⟩
  · intro h1 h2
    simp [TaskManager_add_job_object, h1, h2]
  · intro h
    rcases h with h | h <;> simp [TaskManager_add_job_object, h]
  · intro jid s2 hok
    cases hi : s.instantiated
    · exact Or.inl rfl
    · cases hq : s.queue_activated
      · exact Or.inr rfl
      · simp [TaskManager_add_job_object, hi, hq] at hok

/-- Work-mode workers drain the queue: starting from a state whose FIFO
holds `q`, after `q.length + 1` round-robin turns every task of `q` has
been dequeued (in order), evaluated and sent back, and the final turn's
dequeue was rejected on the empty queue: the FIFO is empty and the store
received one upsert `(jt, evalTask jt)` per task. -/
theorem simWorkers_drain (evalTask : JobTask → ℚ) (W : ℕ) :
    ∀ (q : List JobTask) (k n : ℕ) (res : List (JobTask × ℚ)),
      simWorkers evalTask W (q.length + 1) k ⟨q, n, res⟩ =
        ⟨[], n, (q.map fun jt => (jt, evalTask jt)).foldl
          (fun acc p => upsert acc p.1 p.2) res⟩ := by
  intro q
  induction q with
  | nil =>
    intro k n res
    simp [simWorkers, stepQueue_dequeue_nil, replyJobTask]
  | cons jt rest ih =>
    intro k n res
    simp only [List.length_cons]
    rw [simWorkers, stepQueue_dequeue_cons]
    simp only [replyJobTask, stepQueue_send]
    rw [show ({ (⟨rest, n, res⟩ : QueueState) with
        results := upsert res jt (evalTask jt) } : QueueState) =
      ⟨rest, n, upsert res jt (evalTask jt)⟩ from rfl]
    rw [ih (k + 1) n (upsert res jt (evalTask jt))]
    simp [List.foldl_cons]

/-- Enqueuing a run of task ids appends the corresponding JobTasks at the
tail and counts them in `N_tasks`. -/
theorem enqueue_fold (jobId : ℕ) :
    ∀ (ixs : List ℕ) (s : QueueState),
      ixs.foldl
        (fun acc ix => (stepQueue acc (.fromMaster (.enqueue (jobId, ix)))).1)
        s =
      ⟨s.queue ++ ixs.map fun ix => (jobId, ix), s.N_tasks + ixs.length,
        s.results⟩ := by
  intro ixs
  induction ixs with
  | nil => intro s; simp
  | cons ix rest ih =>
    intro s
    simp only [List.map_cons, List.length_cons]
    rw [List.foldl_cons, stepQueue_enqueue]
    rw [ih ⟨s.queue ++ [(jobId, ix)], s.N_tasks + 1, s.results⟩]
    rw [show s.N_tasks + 1 + rest.length = s.N_tasks + (rest.length + 1) from
      by omega]
    rw [show (s.queue ++ [(jobId, ix)]) ++ rest.map (fun i => (jobId, i)) =
        s.queue ++ (jobId, ix) :: rest.map (fun i => (jobId, i)) from by simp]

/-- Looking a present key up in a store built by tabulating `g` returns
`g` of that key. -/
theorem lookupResult_map (g : JobTask → ℚ) :
    ∀ (l : List JobTask) (jt : JobTask), jt ∈ l →
      lookupResult (l.map fun k => (k, g k)) jt = g jt := by
  intro l
  induction l with
  | nil => intro jt h; cases h
  | cons a t ih =>
    intro jt h
    simp only [List.map_cons, lookupResult]
    by_cases hk : a = jt
    · rw [if_pos hk, hk]
    · rw [if_neg hk]
      refine ih jt ?_
      rcases List.mem_cons.mp h with h1 | h2
      · exact absurd h1.symm hk
      · exact h2

/-- Reading a list back by index: mapping `getD` over `range (length)`
reproduces the list. -/
theorem map_getD_range : ∀ l : List ℚ,
    (List.range l.length).map (fun i => l.getD i 0) = l := by
  intro l
  induction l with
  | nil => rfl
  | cons a t ih =>
    have hcomp : ((fun i => (a :: t).getD i 0) ∘ Nat.succ) =
        fun i => t.getD i 0 := by
      funext i
      simp [Function.comp]
    rw [List.length_cons, List.range_succ_eq_map, List.map_cons,
      List.map_map, hcomp, ih, List.getD_cons_zero]

/-- The parallel evaluation agrees with the serial one for every number of
workers and every input: the enqueued tasks are delivered in FIFO order,
each task's result `x[task]^2 + b` is recorded once, retrieve is accepted
on the drained queue and streams every pair, and the master reassembles the
vector by task id. -/
theorem parallelGetResult_eq_serial (W : ℕ) (b : ℚ) (x : List ℚ) :
    parallelGetResult W b x = serialEvaluate b x := by
  have hinj : Function.Injective fun ix : ℕ => ((0 : ℕ), ix) := by
    intro a c h
    simpa using h
  simp only [parallelGetResult]
  rw [enqueue_fold 0 (List.range x.length) ⟨[], 0, []⟩]
  simp only [List.nil_append, List.length_range, Nat.zero_add]
  rw [show x.length + 1 =
      ((List.range x.length).map fun ix => ((0 : ℕ), ix)).length + 1 by
    simp]
  rw [simWorkers_drain]
  have hnd : ((((List.range x.length).map fun ix => ((0 : ℕ), ix)).map
      fun jt => (jt, (x.getD jt.2 0) ^ 2 + b)).map Prod.fst).Nodup := by
    have hfst : (Prod.fst ∘ fun jt : JobTask =>
        (jt, (x.getD jt.2 0) ^ 2 + b)) = id := by
      funext jt
      rfl
    rw [List.map_map, hfst, List.map_id]
    exact (List.nodup_range x.length).map hinj
  rw [foldl_upsert_of_nodup _ [] hnd (by intro p _; simp)]
  rw [List.nil_append]
  rw [stepQueue_retrieve]
  rw [if_pos ⟨rfl, by simp⟩]
  simp only [acceptedItems]
  have hlook : ∀ ix ∈ List.range x.length,
      lookupResult
        (((List.range x.length).map fun ix => ((0 : ℕ), ix)).map
          fun jt => (jt, (x.getD jt.2 0) ^ 2 + b)) ((0 : ℕ), ix) =
        (x.getD ix 0) ^ 2 + b := by
    intro ix hix
    rw [lookupResult_map (fun jt => (x.getD jt.2 0) ^ 2 + b)
      ((List.range x.length).map fun ix => ((0 : ℕ), ix)) ((0 : ℕ), ix)
      (List.mem_map_of_mem _ hix)]
  rw [List.map_congr_left hlook]
  rw [show (fun ix => (x.getD ix 0) ^ 2 + b) =
      (fun v => v ^ 2 + b) ∘ (fun ix => x.getD ix 0) from rfl]
  rw [← List.map_map, map_getD_range]
  rfl

/-- C9: the x²+b job over `x = (0, 1, 2, 3)` with `b = 3` returns
`(3, 4, 7, 12)`: the serial evaluation gives that vector, and the parallel
evaluation through the enqueue/dequeue/retrieve protocol equals the serial
one for every number of workers — in particular for 1, 2 and 3 workers. -/
theorem C9_x_squared_plus_b :
    serialEvaluate 3 [0, 1, 2, 3] = [3, 4, 7, 12] ∧
    (∀ W : ℕ, parallelGetResult W 3 [0, 1, 2, 3] = [3, 4, 7, 12]) ∧
    parallelGetResult 1 3 [0, 1, 2, 3] = serialEvaluate 3 [0, 1, 2, 3] ∧
    parallelGetResult 2 3 [0, 1, 2, 3] = serialEvaluate 3 [0, 1, 2, 3] ∧
    parallelGetResult 3 3 [0, 1, 2, 3] = serialEvaluate 3 [0, 1, 2, 3] := by
  have hser : serialEvaluate 3 [0, 1, 2, 3] = ([3, 4, 7, 12] : List ℚ) := by
    norm_num [serialEvaluate]
  refine ⟨hser, fun W => ?_, parallelGetResult_eq_serial 1 3 _,
    parallelGetResult_eq_serial 2 3 _, parallelGetResult_eq_serial 3 3 _⟩
  rw [parallelGetResult_eq_serial W 3 _, hser]

end MultiProcess
